import Mathlib

/-!
Verification of the brandcn core: name validation (`src/utils/validate.ts`)
and the logo resolver / batch processor (`src/utils/fs.ts`).

The TypeScript functions are shallowly embedded as Lean functions.  File
system effects (library directory, target directory, copy failures) are
modelled by an explicit state record threaded through the operations;
promise rejection is modelled with `Except`.
-/

namespace Brandcn

/-! ### Name validator (src/utils/validate.ts) -/

/-- The zod `.min(1, ...)` message. -/
def emptyMsg : String := "Logo name cannot be empty"

/-- The zod `.regex(/^[a-zA-Z0-9_-]+$/, ...)` message. -/
def charClassMsg : String :=
  "Logo name must contain only alphanumeric characters, hyphens, or underscores"

/-- One character of the class `[a-zA-Z0-9_-]`. -/
def isAllowedChar (c : Char) : Bool :=
  ('a' ≤ c && c ≤ 'z') || ('A' ≤ c && c ≤ 'Z') || ('0' ≤ c && c ≤ '9') ||
    c = '_' || c = '-'

/-- `logoNameSchema.safeParse` / `validateLogoName`: zod runs the `.min(1)`
check before the `.regex` check, so `issues[0]` is the emptiness message for
the empty string and the character-class message for any other failure. -/
def validateLogoName (s : String) : Except String String :=
  if s.length < 1 then .error emptyMsg
  else if s.data.all isAllowedChar then .ok s
  else .error charClassMsg

/-- One entry of the `errors` array of `validateLogoNamesWithDetails`. -/
structure NameError where
  error : String
  name : String
deriving DecidableEq, Repr

/-- Return record of `validateLogoNamesWithDetails`. -/
structure ValidationDetails where
  errors : List NameError
  hasErrors : Bool
  validNames : List String
deriving DecidableEq, Repr

/-- The loop body of `validateLogoNamesWithDetails`, written as structural
recursion on the remaining input (pushing to the end of an accumulator in the
source loop builds the same lists). -/
def validateLoop : List String → List String × List NameError
  | [] => ([], [])
  | n :: ns =>
    let rest := validateLoop ns
    match validateLogoName n with
    | .ok d => (d :: rest.1, rest.2)
    | .error m => (rest.1, ⟨m, n⟩ :: rest.2)

/-- `validateLogoNamesWithDetails` from src/utils/validate.ts. -/
def validateLogoNamesWithDetails (logoNames : List String) : ValidationDetails :=
  let r := validateLoop logoNames
  { errors := r.2, hasErrors := r.2.length > 0, validNames := r.1 }

/-- Spec-side validity predicate, from the spec's words: length ≥ 1 and every
character matches `[A-Za-z0-9_-]`. -/
def isValidNameSpec (s : String) : Bool :=
  1 ≤ s.length && s.data.all isAllowedChar

theorem string_empty_of_length_zero {s : String} (h : s.length = 0) : s = "" := by
  cases s with
  | mk data =>
    cases data with
    | nil => rfl
    | cons c cs => simp [String.length] at h

theorem validateLogoName_ok_iff (s : String) :
    validateLogoName s = .ok s ↔ isValidNameSpec s = true := by
  unfold validateLogoName isValidNameSpec
  by_cases h1 : s.length < 1
  · have h3 : ¬ (1 ≤ s.length) := by omega
    simp [h1, h3]
  · by_cases h2 : s.data.all isAllowedChar
    · have h3 : 1 ≤ s.length := by omega
      simp [h1, h2, h3]
    · simp [h1, h2]

theorem validateLogoName_error (s : String) (m : String)
    (h : validateLogoName s = .error m) :
    (s = "" ∧ m = emptyMsg) ∨ (s ≠ "" ∧ m = charClassMsg) := by
  unfold validateLogoName at h
  by_cases h1 : s.length < 1
  · left
    have hz : s.length = 0 := by omega
    simp [h1] at h
    exact ⟨string_empty_of_length_zero hz, h.symm⟩
  · right
    by_cases h2 : s.data.all isAllowedChar
    · simp [h1, h2] at h
    · simp [h1, h2] at h
      refine ⟨?_, h.symm⟩
      intro hs
      subst hs
      simp at h1

theorem validateLogoName_ok_data {s d : String} (h : validateLogoName s = .ok d) :
    d = s ∧ isValidNameSpec s = true := by
  unfold validateLogoName at h
  by_cases h1 : s.length < 1
  · simp [h1] at h
  · by_cases h2 : s.data.all isAllowedChar
    · simp [h1, h2] at h
      refine ⟨h.symm, ?_⟩
      unfold isValidNameSpec
      have h3 : 1 ≤ s.length := by omega
      simp [h2, h3]
    · simp [h1, h2] at h

theorem validateLogoName_error_invalid {s m : String}
    (h : validateLogoName s = .error m) : isValidNameSpec s = false := by
  by_cases hv : isValidNameSpec s = true
  · have := (validateLogoName_ok_iff s).mpr hv
    rw [this] at h
    exact absurd h (by simp)
  · simpa using hv

/-- What message an invalid name receives. -/
def invalidEntry (n : String) : NameError :=
  ⟨if n = "" then emptyMsg else charClassMsg, n⟩

theorem validateLoop_spec (names : List String) :
    (validateLoop names).1 = names.filter isValidNameSpec ∧
    (validateLoop names).2 =
      (names.filter (fun n => !isValidNameSpec n)).map invalidEntry := by
  induction names with
  | nil => simp [validateLoop]
  | cons n ns ih =>
    cases hv : validateLogoName n with
    | ok d =>
      obtain ⟨hd, hvalid⟩ := validateLogoName_ok_data hv
      subst hd
      simp only [validateLoop, hv]
      refine ⟨?_, ?_⟩
      · rw [List.filter_cons_of_pos (by simpa using hvalid)]
        simpa using ih.1
      · rw [List.filter_cons_of_neg (by simp [hvalid])]
        simpa using ih.2
    | error m =>
      have hinvalid := validateLogoName_error_invalid hv
      simp only [validateLoop, hv]
      refine ⟨?_, ?_⟩
      · rw [List.filter_cons_of_neg (by simp [hinvalid])]
        simpa using ih.1
      · rw [List.filter_cons_of_pos (by simp [hinvalid])]
        have hmsg : (⟨m, n⟩ : NameError) = invalidEntry n := by
          rcases validateLogoName_error n m hv with ⟨he, hm⟩ | ⟨hne, hm⟩
          · simp [invalidEntry, he, hm]
          · simp [invalidEntry, hne, hm]
        simp only [List.map_cons, hmsg]
        rw [ih.2]

/-- Claim C1: `validateLogoNamesWithDetails` partitions its input: every
string of length ≥ 1 whose characters all match `[A-Za-z0-9_-]` is placed
unchanged in `validNames` in input order; every other string produces one
entry in `errors`, in input order, with the "cannot be empty" message for the
empty string and the character-class message otherwise.  The embedding is a
pure function of its input, so the input is not mutated and no file-system
access occurs. -/
theorem validateLogoNamesWithDetails_partitions (names : List String) :
    (validateLogoNamesWithDetails names).validNames =
      names.filter isValidNameSpec ∧
    (validateLogoNamesWithDetails names).errors =
      (names.filter (fun n => !isValidNameSpec n)).map invalidEntry := by
  unfold validateLogoNamesWithDetails
  exact validateLoop_spec names

/-! ### JS string primitives, modelled on the character-list view of `String` -/

/-- JS `String.prototype.includes` on character lists: `pat` occurs as a
contiguous substring. -/
def listIncludes (pat : List Char) : List Char → Bool
  | [] => pat.isEmpty
  | c :: t => pat.isPrefixOf (c :: t) || listIncludes pat t

/-- JS `s.includes(sub)`. -/
def strIncludes (s sub : String) : Bool := listIncludes sub.data s.data

/-- JS `s.startsWith(p)`. -/
def strStartsWith (s p : String) : Bool := p.data.isPrefixOf s.data

/-- JS `s.endsWith(p)`. -/
def strEndsWith (s p : String) : Bool := p.data.isSuffixOf s.data

/-- JS `s.toLowerCase()` (ASCII range, which is all the source ever compares). -/
def strToLower (s : String) : String := ⟨s.data.map Char.toLower⟩

/-- JS `s.slice(n)`. -/
def strDrop (s : String) (n : Nat) : String := ⟨s.data.drop n⟩

/-- JS `s.split(sep)[0]` for a single-character separator: the part before the
first occurrence of the separator. -/
def strBeforeFirst (s : String) (sep : Char) : String :=
  ⟨s.data.takeWhile (fun c => c != sep)⟩

/-- JS `s.replace(pat, rep)` with string `pat`: replace the first occurrence
only (helper on character lists, for a non-empty pattern). -/
def replaceFirstAux (pat rep : List Char) : List Char → List Char
  | [] => []
  | c :: t =>
    if pat.isPrefixOf (c :: t) then rep ++ (c :: t).drop pat.length
    else c :: replaceFirstAux pat rep t

/-- JS `s.replace(pat, rep)` with a string pattern: first occurrence only. -/
def replaceFirst (s pat rep : String) : String :=
  if pat.data.isEmpty then ⟨rep.data ++ s.data⟩
  else ⟨replaceFirstAux pat.data rep.data s.data⟩

/-! ### Logo resolver (src/utils/fs.ts) -/

/-- `findLogoVariants` from src/utils/fs.ts. -/
def findLogoVariants (brandName : String) (availableLogos : List String) :
    List String :=
  let normalizedBrand := strToLower brandName
  availableLogos.filter (fun logo =>
    let logoLower := strToLower logo
    logoLower == normalizedBrand ||
      strStartsWith logoLower (normalizedBrand ++ "_") ||
      (strStartsWith logoLower (normalizedBrand ++ "-") &&
        strIncludes (strDrop logoLower (normalizedBrand.length + 1)) "_"))

/-- The `ProcessLogosOptions` flags (`dark` / `light` / `wordmark`); an absent
TS field is `false`. -/
structure ProcessLogosOptions where
  dark : Bool
  light : Bool
  wordmark : Bool
deriving DecidableEq, Repr

/-- The `variants` array inside `filterByVariants`. -/
def variantSubstrings : List String := ["_dark", "_light", "_wordmark"]

/-- The `requestedVariants` array inside `filterByVariants`:
`[dark && '_dark', light && '_light', wordmark && '_wordmark'].filter(Boolean)`. -/
def requestedVariants (o : ProcessLogosOptions) : List String :=
  (if o.dark then ["_dark"] else []) ++
    (if o.light then ["_light"] else []) ++
    (if o.wordmark then ["_wordmark"] else [])

/-- The `logoNames.some(...)` sibling test inside `filterByVariants`, for a
base entry with lowercase form `lowerName`. -/
def hasVariantSibling (logoNames : List String) (lowerName : String) : Bool :=
  logoNames.any (fun otherLogo =>
    let otherLower := strToLower otherLogo
    otherLower != lowerName &&
      (strStartsWith otherLower (lowerName ++ "_") ||
        (strIncludes lowerName "-" &&
          strStartsWith otherLower (strBeforeFirst lowerName '_' ++ "_"))))

/-- The filter callback of `filterByVariants`. -/
def keepLogo (logoNames : List String) (requested : List String)
    (logoName : String) : Bool :=
  let lowerName := strToLower logoName
  if requested.any (fun v => strIncludes lowerName v) then true
  else if variantSubstrings.any (fun v => strIncludes lowerName v) then false
  else !hasVariantSibling logoNames lowerName

/-- `filterByVariants` from src/utils/fs.ts. -/
def filterByVariants (logoNames : List String) (options : ProcessLogosOptions) :
    List String :=
  if !options.dark && !options.light && !options.wordmark then logoNames
  else logoNames.filter (keepLogo logoNames (requestedVariants options))

/-! ### Claims about the resolver -/

/-- Spec-side matching rule for variant resolution, from the spec's words:
`I` case-insensitively equals the brand name, or starts with brand + `"_"`,
or starts with brand + `"-"` with the remainder after that prefix containing
an underscore. -/
def SpecVariantMatch (brandName logo : String) : Prop :=
  strToLower logo = strToLower brandName ∨
    strStartsWith (strToLower logo) (strToLower brandName ++ "_") = true ∨
    (strStartsWith (strToLower logo) (strToLower brandName ++ "-") = true ∧
      strIncludes (strDrop (strToLower logo) ((strToLower brandName).length + 1))
        "_" = true)

/-- Claim C2: `findLogoVariants` returns exactly the identifiers matching the
spec's three-way rule, preserving input order; on brand `"github"` with the
four github identifiers it returns all four in order. -/
theorem findLogoVariants_resolves (brandName : String)
    (availableLogos : List String) :
    (∀ logo, logo ∈ findLogoVariants brandName availableLogos ↔
        logo ∈ availableLogos ∧ SpecVariantMatch brandName logo) ∧
      List.Sublist (findLogoVariants brandName availableLogos) availableLogos ∧
      findLogoVariants "github"
          ["github", "github_dark", "github_light", "github_wordmark"] =
        ["github", "github_dark", "github_light", "github_wordmark"] := by
  refine ⟨fun logo => ?_, List.filter_sublist _, by decide⟩
  simp [findLogoVariants, SpecVariantMatch, List.mem_filter, Bool.or_eq_true,
    Bool.and_eq_true, beq_iff_eq, or_assoc]

theorem filterByVariants_flag_eq (l : List String) (o : ProcessLogosOptions)
    (hflag : (o.dark || o.light || o.wordmark) = true) :
    filterByVariants l o = l.filter (keepLogo l (requestedVariants o)) := by
  have hcond : (!o.dark && !o.light && !o.wordmark) = false := by
    cases hd : o.dark <;> cases hl : o.light <;> cases hw : o.wordmark <;>
      simp_all
  simp [filterByVariants, hcond]

/-- Claim C3: with at least one variant flag requested, `filterByVariants`
includes every candidate whose lowercase form contains a requested variant
substring, and never includes a candidate whose lowercase form contains one
of the three variant substrings but no requested one; filtering the four
github identifiers with only `dark` yields exactly `["github_dark"]`. -/
theorem filterByVariants_requested (l : List String) (o : ProcessLogosOptions)
    (hflag : (o.dark || o.light || o.wordmark) = true) :
    (∀ c ∈ l,
        (requestedVariants o).any (fun v => strIncludes (strToLower c) v) =
          true →
        c ∈ filterByVariants l o) ∧
      (∀ c,
        variantSubstrings.any (fun v => strIncludes (strToLower c) v) = true →
        (requestedVariants o).any (fun v => strIncludes (strToLower c) v) =
          false →
        c ∉ filterByVariants l o) ∧
      filterByVariants ["github", "github_dark", "github_light", "github_wordmark"]
          ⟨true, false, false⟩ =
        ["github_dark"] := by
  rw [filterByVariants_flag_eq l o hflag]
  refine ⟨?_, ?_, by decide⟩
  · intro c hc hreq
    exact List.mem_filter.mpr ⟨hc, by simp [keepLogo, hreq]⟩
  · intro c hvar hreq hmem
    have hk := (List.mem_filter.mp hmem).2
    simp [keepLogo, hreq, hvar] at hk

/-- Witness for `filterByVariants_requested` at a concrete input. -/
theorem filterByVariants_requested_witness :
    "github_dark" ∈ filterByVariants ["github", "github_dark"]
        ⟨true, false, false⟩ ∧
      "github_light" ∉ filterByVariants ["github", "github_light"]
        ⟨true, false, false⟩ := by
  have h1 := filterByVariants_requested ["github", "github_dark"]
    ⟨true, false, false⟩ (by decide)
  have h2 := filterByVariants_requested ["github", "github_light"]
    ⟨true, false, false⟩ (by decide)
  exact ⟨h1.1 "github_dark" (by decide) (by decide),
    h2.2.1 "github_light" (by decide) (by decide)⟩

/-- The sibling rule as Claim C4 states it (the resolution prefix rule):
another candidate starting with the base + `"_"`, or with the base + `"-"`
and the remainder after that prefix containing an underscore. -/
def claimSiblingRule (base other : String) : Bool :=
  strStartsWith (strToLower other) (strToLower base ++ "_") ||
    (strStartsWith (strToLower other) (strToLower base ++ "-") &&
      strIncludes (strDrop (strToLower other) ((strToLower base).length + 1))
        "_")

/-- Counterexample to Claim C4: `"apple-music"` is a base entry (contains no
variant substring) and `"apple-music-x_dark"` is its variant sibling under
the resolution prefix rule the claim names, yet `filterByVariants` keeps the
base entry: the code's sibling test only looks for `base + "_"` prefixes
(after splitting the base at its first underscore), not for the
hyphen-then-underscore form. -/
theorem filterByVariants_base_counterexample :
    variantSubstrings.all
        (fun v => !strIncludes (strToLower "apple-music") v) = true ∧
      "apple-music-x_dark" ∈
        (["apple-music", "apple-music-x_dark"] : List String) ∧
      "apple-music" ≠ "apple-music-x_dark" ∧
      claimSiblingRule "apple-music" "apple-music-x_dark" = true ∧
      filterByVariants ["apple-music", "apple-music-x_dark"]
          ⟨true, false, false⟩ =
        ["apple-music", "apple-music-x_dark"] := by
  decide

/-- The sibling rule the code actually implements (the `logoNames.some`
callback in `filterByVariants`): a candidate with a different lowercase form
that starts with the base + `"_"`, or, when the base contains a hyphen,
starts with the part of the base before its first underscore followed by
`"_"`. -/
def amendedSibling (lowerBase other : String) : Bool :=
  strToLower other != lowerBase &&
    (strStartsWith (strToLower other) (lowerBase ++ "_") ||
      (strIncludes lowerBase "-" &&
        strStartsWith (strToLower other)
          (strBeforeFirst lowerBase '_' ++ "_")))

theorem requestedVariants_subset (o : ProcessLogosOptions) :
    ∀ v ∈ requestedVariants o, v ∈ variantSubstrings := by
  intro v hv
  unfold requestedVariants at hv
  unfold variantSubstrings
  cases hd : o.dark <;> cases hl : o.light <;> cases hw : o.wordmark <;>
    simp_all <;> tauto

theorem hasVariantSibling_any (l : List String) (lower : String) :
    hasVariantSibling l lower = true ↔
      ∃ other ∈ l, amendedSibling lower other = true := by
  unfold hasVariantSibling amendedSibling
  rw [List.any_eq_true]

theorem hasVariantSibling_sub (l₁ l₂ : List String)
    (hsub : ∀ x ∈ l₁, x ∈ l₂) (lower : String)
    (h : hasVariantSibling l₂ lower = false) :
    hasVariantSibling l₁ lower = false := by
  by_contra hc
  have h1 : hasVariantSibling l₁ lower = true := by
    cases hval : hasVariantSibling l₁ lower
    · exact absurd hval hc
    · rfl
  obtain ⟨other, ho, hs⟩ := (hasVariantSibling_any _ _).mp h1
  have h2 : hasVariantSibling l₂ lower = true :=
    (hasVariantSibling_any _ _).mpr ⟨other, hsub other ho, hs⟩
  rw [h] at h2
  exact absurd h2 (by simp)

/-- Amended Claim C4: with at least one variant flag set, a base entry (one
whose lowercase form contains none of the three variant substrings) is kept
if and only if no other candidate in the same input list is its sibling
under the code's rule: a candidate with a different lowercase form starting
with the base + `"_"`, or, when the base contains a hyphen, starting with
the base's part before its first underscore followed by `"_"`.  The
`["vercel", "neon"]` example passes through unchanged. -/
theorem filterByVariants_base_amended :
    (∀ (l : List String) (o : ProcessLogosOptions) (c : String),
        (o.dark || o.light || o.wordmark) = true →
        variantSubstrings.all (fun v => !strIncludes (strToLower c) v) = true →
        (c ∈ filterByVariants l o ↔
          c ∈ l ∧ ∀ other ∈ l, amendedSibling (strToLower c) other = false)) ∧
      filterByVariants ["vercel", "neon"] ⟨true, false, false⟩ =
        ["vercel", "neon"] := by
  refine ⟨?_, by decide⟩
  intro l o c hflag hbase
  rw [filterByVariants_flag_eq l o hflag]
  have hvar : variantSubstrings.any (fun v => strIncludes (strToLower c) v) =
      false := by
    rw [List.any_eq_false]
    intro v hv
    have := List.all_eq_true.mp hbase v hv
    simpa using this
  have hreq : (requestedVariants o).any
      (fun v => strIncludes (strToLower c) v) = false := by
    rw [List.any_eq_false]
    intro v hv
    have := List.all_eq_true.mp hbase v (requestedVariants_subset o v hv)
    simpa using this
  rw [List.mem_filter]
  have hkeep : keepLogo l (requestedVariants o) c =
      !hasVariantSibling l (strToLower c) := by
    simp [keepLogo, hreq, hvar]
  rw [hkeep]
  constructor
  · rintro ⟨hc, hk⟩
    refine ⟨hc, fun other ho => ?_⟩
    cases hval : amendedSibling (strToLower c) other
    · rfl
    · have hsib : hasVariantSibling l (strToLower c) = true :=
        (hasVariantSibling_any _ _).mpr ⟨other, ho, hval⟩
      rw [hsib] at hk
      exact absurd hk (by simp)
  · rintro ⟨hc, hall⟩
    refine ⟨hc, ?_⟩
    have hsib : hasVariantSibling l (strToLower c) = false := by
      cases hval : hasVariantSibling l (strToLower c)
      · rfl
      · obtain ⟨other, ho, hs⟩ := (hasVariantSibling_any _ _).mp hval
        rw [hall other ho] at hs
        exact absurd hs (by simp)
    rw [hsib]
    rfl

/-- Witness for `filterByVariants_base_amended` at a concrete input. -/
theorem filterByVariants_base_amended_witness :
    "vercel" ∈ filterByVariants ["vercel", "neon"] ⟨true, false, false⟩ := by
  have h := filterByVariants_base_amended.1 ["vercel", "neon"]
    ⟨true, false, false⟩ "vercel" (by decide) (by decide)
  exact h.mpr ⟨by decide, by decide⟩

/-- Claim C10: `filterByVariants` is idempotent, and its output is always a
subsequence of its input (no identifier introduced, duplicated or
reordered). -/
theorem filterByVariants_idempotent (l : List String)
    (o : ProcessLogosOptions) :
    filterByVariants (filterByVariants l o) o = filterByVariants l o ∧
      List.Sublist (filterByVariants l o) l := by
  by_cases hcond : (!o.dark && !o.light && !o.wordmark) = true
  · simp [filterByVariants, hcond]
  · have hflag : (o.dark || o.light || o.wordmark) = true := by
      cases hd : o.dark <;> cases hl : o.light <;> cases hw : o.wordmark <;>
        simp_all
    rw [filterByVariants_flag_eq l o hflag]
    refine ⟨?_, List.filter_sublist l⟩
    rw [filterByVariants_flag_eq _ o hflag]
    apply List.filter_eq_self.mpr
    intro c hcmem
    have hcl := List.mem_filter.mp hcmem
    have hkeep := hcl.2
    by_cases hreq : (requestedVariants o).any
        (fun v => strIncludes (strToLower c) v) = true
    · simp [keepLogo, hreq]
    · have hreq' : (requestedVariants o).any
          (fun v => strIncludes (strToLower c) v) = false := by
        cases hval : (requestedVariants o).any
            (fun v => strIncludes (strToLower c) v)
        · rfl
        · exact absurd hval hreq
      by_cases hvar : variantSubstrings.any
          (fun v => strIncludes (strToLower c) v) = true
      · rw [keepLogo, if_neg (by simp [hreq']), if_pos hvar] at hkeep
        exact absurd hkeep (by simp)
      · have hvar' : variantSubstrings.any
            (fun v => strIncludes (strToLower c) v) = false := by
          cases hval : variantSubstrings.any
              (fun v => strIncludes (strToLower c) v)
          · rfl
          · exact absurd hval hvar
        rw [keepLogo, if_neg (by simp [hreq']), if_neg (by simp [hvar'])]
          at hkeep
        rw [keepLogo, if_neg (by simp [hreq']), if_neg (by simp [hvar'])]
        have hsib : hasVariantSibling l (strToLower c) = false := by
          cases hval : hasVariantSibling l (strToLower c)
          · rfl
          · rw [hval] at hkeep
            exact absurd hkeep (by simp)
        have := hasVariantSibling_sub
          (l.filter (keepLogo l (requestedVariants o))) l
          (fun x hx => (List.mem_filter.mp hx).1) (strToLower c) hsib
        rw [this]
        rfl

/-! ### File-system model -/

/-- The file-system state the processor sees: the library directory as a
listing of `(filename, contents)` pairs, whether `readdir` on the library
succeeds (`libraryReadError = some msg` models a rejection with message
`msg`), the target directory, and the identifiers whose physical copy write
raises an I/O error (injected fault modelling permission / disk failures). -/
structure FSState where
  library : List (String × String)
  libraryReadError : Option String
  target : List (String × String)
  copyFailures : List String
deriving DecidableEq, Repr

/-- Directory lookup of one file's contents. -/
def lookupFile (files : List (String × String)) (fname : String) :
    Option String :=
  (files.find? (fun p => p.1 == fname)).map Prod.snd

/-- `logoExistsInLibrary`: `access(<library>/<name>.svg, F_OK)` succeeds. -/
def logoExistsInLibrary (st : FSState) (logoName : String) : Bool :=
  (lookupFile st.library (logoName ++ ".svg")).isSome

/-- `logoExistsInTarget`: `access(<target>/<name>.svg, F_OK)` succeeds. -/
def logoExistsInTarget (st : FSState) (logoName : String) : Bool :=
  (lookupFile st.target (logoName ++ ".svg")).isSome

/-- `copyLogoToTarget` from src/utils/fs.ts: verify library existence (throw
Not-Found otherwise), ensure the target directory (a no-op on this state
model), then `copy(src, dest, {overwrite: false})` — fs-extra resolves
silently without writing when the destination already exists. -/
def copyLogoToTarget (st : FSState) (logoName : String) :
    Except String FSState :=
  if logoExistsInLibrary st logoName then
    if logoExistsInTarget st logoName then .ok st
    else if st.copyFailures.contains logoName then .error "copy failed"
    else
      match lookupFile st.library (logoName ++ ".svg") with
      | some content =>
        .ok { st with target := st.target ++ [(logoName ++ ".svg", content)] }
      | none => .ok st
  else .error ("Logo \"" ++ logoName ++ ".svg\" not found in library")

/-- Lexicographic less-or-equal on character lists by code point, the order
JS `Array.prototype.sort()` uses on strings. -/
def charListLe : List Char → List Char → Bool
  | [], _ => true
  | _ :: _, [] => false
  | a :: as, b :: bs =>
    if a.toNat < b.toNat then true
    else if b.toNat < a.toNat then false
    else charListLe as bs

/-- Lexicographic less-or-equal on strings. -/
def strLe (a b : String) : Bool := charListLe a.data b.data

/-- JS default `Array.prototype.sort()` on strings (insertion sort; any
comparison sort yields the same list for a total order). -/
def sortStrings (l : List String) : List String :=
  List.insertionSort (fun a b => strLe a b = true) l

/-- `getAvailableLogos` from src/utils/fs.ts:
`readdir` then `.filter(endsWith '.svg').map(replace('.svg','')).sort()`,
wrapping a `readdir` failure into one descriptive error. -/
def getAvailableLogos (st : FSState) : Except String (List String) :=
  match st.libraryReadError with
  | some msg => .error ("Failed to read library directory: " ++ msg)
  | none =>
    .ok (sortStrings
      (((st.library.map Prod.fst).filter (fun f => strEndsWith f ".svg")).map
        (fun f => replaceFirst f ".svg" "")))

/-- The `LogoOperationResult` record; absent TS optional fields are `none`. -/
structure LogoOperationResult where
  error : Option String := none
  logoName : String
  reason : Option String := none
  skipped : Option Bool := none
  success : Bool
deriving DecidableEq, Repr

/-- The `skipped` record pushed when the logo is already in the target. -/
def skipResult (v : String) : LogoOperationResult :=
  { logoName := v, reason := some "Logo already exists in logos directory",
    skipped := some true, success := true }

/-- The plain success record pushed after a copy. -/
def okResult (v : String) : LogoOperationResult :=
  { logoName := v, success := true }

/-- A failure record. -/
def failResult (n msg : String) : LogoOperationResult :=
  { logoName := n, error := some msg, success := false }

/-- Message for a brand name absent from the library. -/
def notFoundMsg (n : String) : String :=
  "Logo \"" ++ n ++ "\" not found in library"

/-- Message for a brand name whose variants were all filtered out. -/
def noVariantsMsg (n : String) : String :=
  "No variants found for \"" ++ n ++ "\" matching the specified flags"

/-- The inner `for (const variant of filteredVariants)` loop of
`processLogos`: skip existing targets, copy the rest; a copy rejection stops
the loop and is reported in the middle component (to be handled by the
enclosing `catch`). -/
def copyVariantsLoop :
    FSState → List String → List LogoOperationResult × Option String × FSState
  | st, [] => ([], none, st)
  | st, v :: vs =>
    if logoExistsInTarget st v then
      match copyVariantsLoop st vs with
      | (rs, e, st') => (skipResult v :: rs, e, st')
    else
      match copyLogoToTarget st v with
      | .error msg => ([], some msg, st)
      | .ok st1 =>
        match copyVariantsLoop st1 vs with
        | (rs, e, st') => (okResult v :: rs, e, st')

/-- Steps 2–3 of the per-name sequence, after variants were resolved:
variant filtering, the not-found-matching-flags failure, the copy loop, and
the enclosing `catch` that turns a copy rejection into one failure record
for the brand name. -/
def processResolved (opts : ProcessLogosOptions) (st : FSState)
    (logoName : String) (variants : List String) :
    List LogoOperationResult × FSState :=
  if (filterByVariants variants opts).isEmpty then
    ([failResult logoName (noVariantsMsg logoName)], st)
  else
    match copyVariantsLoop st (filterByVariants variants opts) with
    | (rs, none, st') => (rs, st')
    | (rs, some msg, st') => (rs ++ [failResult logoName msg], st')

/-- One iteration of the outer `for (const logoName of logoNames)` loop of
`processLogos`: resolve variants, fall back to the literal single-name check,
report not-found, then hand over to `processResolved`. -/
def processOneName (avail : List String) (opts : ProcessLogosOptions)
    (st : FSState) (logoName : String) :
    List LogoOperationResult × FSState :=
  if (findLogoVariants logoName avail).isEmpty then
    if logoExistsInLibrary st logoName then
      processResolved opts st logoName [logoName]
    else ([failResult logoName (notFoundMsg logoName)], st)
  else processResolved opts st logoName (findLogoVariants logoName avail)

/-- The outer loop of `processLogos` over all brand names. -/
def processNamesLoop (avail : List String) (opts : ProcessLogosOptions) :
    FSState → List String → List LogoOperationResult × FSState
  | st, [] => ([], st)
  | st, n :: ns =>
    match processOneName avail opts st n with
    | (rs1, st1) =>
      match processNamesLoop avail opts st1 ns with
      | (rs2, st2) => (rs1 ++ rs2, st2)

/-- `processLogos` from src/utils/fs.ts: list the library once (a rejection
propagates), then process every brand name in order. -/
def processLogos (st : FSState) (logoNames : List String)
    (opts : ProcessLogosOptions) :
    Except String (List LogoOperationResult × FSState) :=
  match getAvailableLogos st with
  | .error e => .error e
  | .ok avail => .ok (processNamesLoop avail opts st logoNames)

/-! ### Claims about the store operations -/

theorem charListLe_total : ∀ as bs : List Char,
    charListLe as bs = true ∨ charListLe bs as = true
  | [], _ => Or.inl rfl
  | _ :: _, [] => Or.inr rfl
  | a :: as, b :: bs => by
    rcases Nat.lt_trichotomy a.toNat b.toNat with h | h | h
    · left
      simp [charListLe, h]
    · have h1 : ¬ a.toNat < b.toNat := by omega
      have h2 : ¬ b.toNat < a.toNat := by omega
      rcases charListLe_total as bs with hh | hh
      · left
        simp [charListLe, h1, h2, hh]
      · right
        simp [charListLe, h1, h2, hh]
    · right
      simp [charListLe, h]

theorem charListLe_trans : ∀ as bs cs : List Char,
    charListLe as bs = true → charListLe bs cs = true →
    charListLe as cs = true
  | [], _, _ => by
    intro _ _
    rfl
  | _ :: _, [], _ => by
    intro h _
    simp [charListLe] at h
  | _ :: _, _ :: _, [] => by
    intro _ h
    simp [charListLe] at h
  | a :: as, b :: bs, c :: cs => by
    intro h1 h2
    rcases Nat.lt_trichotomy a.toNat b.toNat with hab | hab | hab
    · rcases Nat.lt_trichotomy b.toNat c.toNat with hbc | hbc | hbc
      · have hac : a.toNat < c.toNat := by omega
        simp [charListLe, hac]
      · have hac : a.toNat < c.toNat := by omega
        simp [charListLe, hac]
      · have hnbc : ¬ b.toNat < c.toNat := by omega
        simp [charListLe, hnbc, hbc] at h2
    · rcases Nat.lt_trichotomy b.toNat c.toNat with hbc | hbc | hbc
      · have hac : a.toNat < c.toNat := by omega
        simp [charListLe, hac]
      · have hnab : ¬ a.toNat < b.toNat := by omega
        have hnba : ¬ b.toNat < a.toNat := by omega
        have hnbc : ¬ b.toNat < c.toNat := by omega
        have hncb : ¬ c.toNat < b.toNat := by omega
        have hnac : ¬ a.toNat < c.toNat := by omega
        have hnca : ¬ c.toNat < a.toNat := by omega
        simp only [charListLe, if_neg hnab, if_neg hnba] at h1
        simp only [charListLe, if_neg hnbc, if_neg hncb] at h2
        simp only [charListLe, if_neg hnac, if_neg hnca]
        exact charListLe_trans as bs cs h1 h2
      · have hnbc : ¬ b.toNat < c.toNat := by omega
        simp [charListLe, hnbc, hbc] at h2
    · have hnab : ¬ a.toNat < b.toNat := by omega
      simp [charListLe, hnab, hab] at h1

instance : IsTotal String (fun a b => strLe a b = true) :=
  ⟨fun a b => charListLe_total a.data b.data⟩

instance : IsTrans String (fun a b => strLe a b = true) :=
  ⟨fun a b c => charListLe_trans a.data b.data c.data⟩

/-- The claim's reading of extension stripping: the filename minus its
trailing `".svg"`. -/
def stripTrailingSvg (f : String) : String :=
  ⟨f.data.take (f.data.length - 4)⟩

/-- Counterexample to Claim C9: for the library file `"a.svgb.svg"` the code
removes the FIRST occurrence of `".svg"` (JS `replace` with a string
pattern), returning `"ab.svg"`, while the claim demands the filename minus
its trailing `".svg"`, i.e. `"a.svgb"`. -/
theorem getAvailableLogos_counterexample :
    strEndsWith "a.svgb.svg" ".svg" = true ∧
      stripTrailingSvg "a.svgb.svg" = "a.svgb" ∧
      getAvailableLogos
          { library := [("a.svgb.svg", "x")], libraryReadError := none,
            target := [], copyFailures := [] } =
        .ok ["ab.svg"] ∧
      ("ab.svg" : String) ≠ "a.svgb" := by
  refine ⟨by decide, by decide, by rfl, by decide⟩

/-- Amended Claim C9: `getAvailableLogos` returns exactly the entries whose
names end in `".svg"`, each with the FIRST occurrence of `".svg"` removed
(which equals stripping the trailing extension whenever `".svg"` occurs
nowhere else), sorted lexicographically; when the directory cannot be
listed it fails with the single descriptive Store-Read error. -/
theorem getAvailableLogos_spec (st : FSState) :
    (∀ msg, st.libraryReadError = some msg →
        getAvailableLogos st =
          .error ("Failed to read library directory: " ++ msg)) ∧
      (st.libraryReadError = none →
        ∃ l, getAvailableLogos st = .ok l ∧
          List.Perm l
            (((st.library.map Prod.fst).filter
                (fun f => strEndsWith f ".svg")).map
              (fun f => replaceFirst f ".svg" "")) ∧
          List.Sorted (fun a b => strLe a b = true) l) := by
  constructor
  · intro msg h
    simp [getAvailableLogos, h]
  · intro h
    unfold getAvailableLogos sortStrings
    rw [h]
    exact ⟨_, rfl, List.perm_insertionSort _ _, List.sorted_insertionSort _ _⟩

/-- Witness for `getAvailableLogos_spec` at concrete states. -/
theorem getAvailableLogos_spec_witness :
    getAvailableLogos
        { library := [], libraryReadError := some "ENOENT", target := [],
          copyFailures := [] } =
      .error "Failed to read library directory: ENOENT" ∧
      ∃ l, getAvailableLogos
          { library := [("b.svg", ""), ("a.svg", "")],
            libraryReadError := none, target := [], copyFailures := [] } =
        .ok l ∧
        List.Perm l
          (((([("b.svg", ""), ("a.svg", "")] :
              List (String × String)).map Prod.fst).filter
              (fun f => strEndsWith f ".svg")).map
            (fun f => replaceFirst f ".svg" "")) ∧
        List.Sorted (fun a b => strLe a b = true) l := by
  constructor
  · exact (getAvailableLogos_spec _).1 "ENOENT" rfl
  · exact (getAvailableLogos_spec _).2 rfl

/-- Claim C8: for an identifier present in the source store whose destination
file already exists, `copyLogoToTarget` succeeds and leaves the state — in
particular the existing destination contents — unchanged (the copy refuses
overwrite); for an identifier absent from the source store it fails with the
not-found error, returning no modified state. -/
theorem copyLogoToTarget_spec (st : FSState) (n : String) :
    (logoExistsInLibrary st n = true → logoExistsInTarget st n = true →
        copyLogoToTarget st n = .ok st) ∧
      (logoExistsInLibrary st n = false →
        copyLogoToTarget st n =
          .error ("Logo \"" ++ n ++ ".svg\" not found in library")) := by
  constructor
  · intro h1 h2
    simp [copyLogoToTarget, h1, h2]
  · intro h1
    simp [copyLogoToTarget, h1]

/-- Witness for `copyLogoToTarget_spec` at a concrete state. -/
theorem copyLogoToTarget_spec_witness :
    copyLogoToTarget
        { library := [("a.svg", "NEW")], libraryReadError := none,
          target := [("a.svg", "OLD")], copyFailures := [] } "a" =
      .ok { library := [("a.svg", "NEW")], libraryReadError := none,
            target := [("a.svg", "OLD")], copyFailures := [] } ∧
      copyLogoToTarget
        { library := [("a.svg", "NEW")], libraryReadError := none,
          target := [("a.svg", "OLD")], copyFailures := [] } "b" =
      .error "Logo \"b.svg\" not found in library" := by
  refine ⟨(copyLogoToTarget_spec _ "a").1 (by rfl) (by rfl),
    (copyLogoToTarget_spec _ "b").2 (by rfl)⟩

/-! ### Batch-processing claims -/

/-- Both directory-independent fields of the state are preserved: the
library listing and its readability are never written by the processor. -/
def SameLibrary (st st' : FSState) : Prop :=
  st'.library = st.library ∧ st'.libraryReadError = st.libraryReadError ∧
    st'.copyFailures = st.copyFailures

theorem sameLibrary_refl (st : FSState) : SameLibrary st st := ⟨rfl, rfl, rfl⟩

theorem sameLibrary_trans {s t u : FSState} (h1 : SameLibrary s t)
    (h2 : SameLibrary t u) : SameLibrary s u :=
  ⟨h2.1.trans h1.1, h2.2.1.trans h1.2.1, h2.2.2.trans h1.2.2⟩

theorem copyLogoToTarget_sameLibrary {st st' : FSState} {n : String}
    (h : copyLogoToTarget st n = .ok st') : SameLibrary st st' := by
  unfold copyLogoToTarget at h
  split at h
  · split at h
    · cases h
      exact sameLibrary_refl st
    · split at h
      · simp at h
      · split at h
        · cases h
          exact ⟨rfl, rfl, rfl⟩
        · cases h
          exact sameLibrary_refl st
  · simp at h

theorem copyVariantsLoop_sameLibrary :
    ∀ (vs : List String) (st : FSState),
      SameLibrary st (copyVariantsLoop st vs).2.2
  | [], st => sameLibrary_refl st
  | v :: vs, st => by
    simp only [copyVariantsLoop]
    split
    · exact copyVariantsLoop_sameLibrary vs st
    · split
      case h_1 msg heq => exact sameLibrary_refl st
      case h_2 st1 heq =>
        exact sameLibrary_trans (copyLogoToTarget_sameLibrary heq)
          (copyVariantsLoop_sameLibrary vs st1)

theorem processResolved_sameLibrary (opts : ProcessLogosOptions)
    (st : FSState) (n : String) (variants : List String) :
    SameLibrary st (processResolved opts st n variants).2 := by
  unfold processResolved
  split
  · exact sameLibrary_refl st
  · split
    case h_1 rs st' heq =>
      have := copyVariantsLoop_sameLibrary (filterByVariants variants opts) st
      rw [heq] at this
      exact this
    case h_2 rs msg st' heq =>
      have := copyVariantsLoop_sameLibrary (filterByVariants variants opts) st
      rw [heq] at this
      exact this

theorem processOneName_sameLibrary (avail : List String)
    (opts : ProcessLogosOptions) (st : FSState) (n : String) :
    SameLibrary st (processOneName avail opts st n).2 := by
  unfold processOneName
  split
  · split
    · exact processResolved_sameLibrary opts st n [n]
    · exact sameLibrary_refl st
  · exact processResolved_sameLibrary opts st n _

theorem getAvailableLogos_congr {st st' : FSState} (h : SameLibrary st st') :
    getAvailableLogos st' = getAvailableLogos st := by
  unfold getAvailableLogos
  rw [h.1, h.2.1]

theorem copyVariantsLoop_success :
    ∀ (vs : List String) (st : FSState),
      ∀ r ∈ (copyVariantsLoop st vs).1, r.success = true
  | [], st => by
    intro r hr
    simp [copyVariantsLoop] at hr
  | v :: vs, st => by
    intro r hr
    simp only [copyVariantsLoop] at hr
    split at hr
    · rcases List.mem_cons.mp hr with h | h
      · subst h
        rfl
      · exact copyVariantsLoop_success vs st r h
    · split at hr
      case h_1 msg heq => simp at hr
      case h_2 st1 heq =>
        rcases List.mem_cons.mp hr with h | h
        · subst h
          rfl
        · exact copyVariantsLoop_success vs st1 r h

theorem copyVariantsLoop_shape :
    ∀ (vs : List String) (st : FSState),
      ∀ r ∈ (copyVariantsLoop st vs).1,
        (∃ v, r = skipResult v) ∨ (∃ v, r = okResult v)
  | [], st => by
    intro r hr
    simp [copyVariantsLoop] at hr
  | v :: vs, st => by
    intro r hr
    simp only [copyVariantsLoop] at hr
    split at hr
    · rcases List.mem_cons.mp hr with h | h
      · exact Or.inl ⟨v, h⟩
      · exact copyVariantsLoop_shape vs st r h
    · split at hr
      case h_1 msg heq => simp at hr
      case h_2 st1 heq =>
        rcases List.mem_cons.mp hr with h | h
        · exact Or.inr ⟨v, h⟩
        · exact copyVariantsLoop_shape vs st1 r h

theorem processResolved_shape (opts : ProcessLogosOptions) (st : FSState)
    (n : String) (variants : List String) :
    ∀ r ∈ (processResolved opts st n variants).1,
      (∃ v, r = skipResult v) ∨ (∃ v, r = okResult v) ∨
        (∃ msg, r = failResult n msg) := by
  intro r hr
  unfold processResolved at hr
  split at hr
  · simp at hr
    exact Or.inr (Or.inr ⟨noVariantsMsg n, hr⟩)
  · split at hr
    case h_1 rs st' heq =>
      have := copyVariantsLoop_shape (filterByVariants variants opts) st r
      rw [heq] at this
      rcases this hr with h | h
      · exact Or.inl h
      · exact Or.inr (Or.inl h)
    case h_2 rs msg st' heq =>
      rcases List.mem_append.mp hr with h | h
      · have := copyVariantsLoop_shape (filterByVariants variants opts) st r
        rw [heq] at this
        rcases this h with h' | h'
        · exact Or.inl h'
        · exact Or.inr (Or.inl h')
      · simp at h
        exact Or.inr (Or.inr ⟨msg, h⟩)

theorem processOneName_shape (avail : List String)
    (opts : ProcessLogosOptions) (st : FSState) (n : String) :
    ∀ r ∈ (processOneName avail opts st n).1,
      (∃ v, r = skipResult v) ∨ (∃ v, r = okResult v) ∨
        (∃ msg, r = failResult n msg) := by
  intro r hr
  unfold processOneName at hr
  split at hr
  · split at hr
    · exact processResolved_shape opts st n [n] r hr
    · simp at hr
      exact Or.inr (Or.inr ⟨notFoundMsg n, hr⟩)
  · exact processResolved_shape opts st n _ r hr

theorem processNamesLoop_shape (avail : List String)
    (opts : ProcessLogosOptions) :
    ∀ (names : List String) (st : FSState),
      ∀ r ∈ (processNamesLoop avail opts st names).1,
        (∃ v, r = skipResult v) ∨ (∃ v, r = okResult v) ∨
          (∃ n msg, r = failResult n msg)
  | [], st => by
    intro r hr
    simp [processNamesLoop] at hr
  | n :: ns, st => by
    intro r hr
    simp only [processNamesLoop] at hr
    rcases List.mem_append.mp hr with h | h
    · rcases processOneName_shape avail opts st n r h with h' | h' | ⟨msg, h'⟩
      · exact Or.inl h'
      · exact Or.inr (Or.inl h')
      · exact Or.inr (Or.inr ⟨n, msg, h'⟩)
    · exact processNamesLoop_shape avail opts ns _ r h

theorem processResolved_fail (opts : ProcessLogosOptions) (st : FSState)
    (n : String) (variants : List String) :
    ((processResolved opts st n variants).1.filter
      (fun r => !r.success)).length ≤ 1 ∧
      ∀ r ∈ (processResolved opts st n variants).1,
        r.success = false → r.logoName = n := by
  unfold processResolved
  split
  · constructor
    · simp [failResult]
    · intro r hr _
      simp at hr
      subst hr
      rfl
  · split
    case h_1 rs st' heq =>
      have hall : ∀ r ∈ rs, r.success = true := by
        intro r hr
        have := copyVariantsLoop_success (filterByVariants variants opts) st r
        rw [heq] at this
        exact this hr
      have hnil : rs.filter (fun r => !r.success) = [] := by
        rw [List.filter_eq_nil_iff]
        intro a ha
        simp [hall a ha]
      constructor
      · simp [hnil]
      · intro r hr hf
        rw [hall r hr] at hf
        exact absurd hf (by simp)
    case h_2 rs msg st' heq =>
      have hall : ∀ r ∈ rs, r.success = true := by
        intro r hr
        have := copyVariantsLoop_success (filterByVariants variants opts) st r
        rw [heq] at this
        exact this hr
      have hnil : rs.filter (fun r => !r.success) = [] := by
        rw [List.filter_eq_nil_iff]
        intro a ha
        simp [hall a ha]
      constructor
      · rw [List.filter_append, hnil]
        simp [failResult]
      · intro r hr hf
        rcases List.mem_append.mp hr with h | h
        · rw [hall r h] at hf
          exact absurd hf (by simp)
        · simp at h
          subst h
          rfl

theorem processOneName_fail (avail : List String)
    (opts : ProcessLogosOptions) (st : FSState) (n : String) :
    ((processOneName avail opts st n).1.filter
      (fun r => !r.success)).length ≤ 1 ∧
      ∀ r ∈ (processOneName avail opts st n).1,
        r.success = false → r.logoName = n := by
  unfold processOneName
  split
  · split
    · exact processResolved_fail opts st n [n]
    · constructor
      · simp [failResult]
      · intro r hr _
        simp at hr
        subst hr
        rfl
  · exact processResolved_fail opts st n _

/-- Claim C5: any error during one name's resolve/filter/copy sequence is
caught and becomes a single failure record for that name (at most one
failure record per per-name block, each carrying that brand name), and the
loop continues with the remaining names from the updated state; the only
error `processLogos` propagates is the failure to list the source store. -/
theorem processLogos_error_isolation (st : FSState) (names : List String)
    (opts : ProcessLogosOptions) :
    ((∃ e, processLogos st names opts = .error e) ↔
        st.libraryReadError ≠ none) ∧
      (∀ e, processLogos st names opts = .error e →
        getAvailableLogos st = .error e) ∧
      (∀ avail n ns, getAvailableLogos st = .ok avail →
        ∃ rs₂ st₂,
          processLogos (processOneName avail opts st n).2 ns opts =
            .ok (rs₂, st₂) ∧
          processLogos st (n :: ns) opts =
            .ok ((processOneName avail opts st n).1 ++ rs₂, st₂)) ∧
      (∀ avail n,
        ((processOneName avail opts st n).1.filter
          (fun r => !r.success)).length ≤ 1 ∧
        ∀ r ∈ (processOneName avail opts st n).1,
          r.success = false → r.logoName = n) := by
  refine ⟨?_, ?_, ?_, fun avail n => processOneName_fail avail opts st n⟩
  · cases hre : st.libraryReadError with
    | none => simp [processLogos, getAvailableLogos, hre]
    | some msg =>
      constructor
      · intro _
        simp [hre]
      · intro _
        exact ⟨"Failed to read library directory: " ++ msg,
          by simp [processLogos, getAvailableLogos, hre]⟩
  · intro e he
    unfold processLogos at he
    split at he
    case h_1 e' heq =>
      cases he
      exact heq
    case h_2 avail heq => simp at he
  · intro avail n ns hok
    have hsame := processOneName_sameLibrary avail opts st n
    have hok2 : getAvailableLogos (processOneName avail opts st n).2 =
        .ok avail := by
      rw [getAvailableLogos_congr hsame, hok]
    refine ⟨(processNamesLoop avail opts
        (processOneName avail opts st n).2 ns).1,
      (processNamesLoop avail opts (processOneName avail opts st n).2 ns).2,
      ?_, ?_⟩
    · unfold processLogos
      rw [hok2]
    · unfold processLogos
      rw [hok]
      simp only [processNamesLoop]

/-- A small concrete library state used to instantiate the batch theorems. -/
def sampleState : FSState :=
  { library := [("github.svg", "G"), ("github_dark.svg", "GD"),
      ("vercel.svg", "V")],
    libraryReadError := none, target := [], copyFailures := [] }

/-- Witness for `processLogos_error_isolation` at a concrete input. -/
theorem processLogos_error_isolation_witness :
    ∃ rs₂ st₂,
      processLogos
          (processOneName ["github", "github_dark", "vercel"]
            ⟨false, false, false⟩ sampleState "vercel").2
          [] ⟨false, false, false⟩ =
        .ok (rs₂, st₂) ∧
      processLogos sampleState ["vercel"] ⟨false, false, false⟩ =
        .ok ((processOneName ["github", "github_dark", "vercel"]
          ⟨false, false, false⟩ sampleState "vercel").1 ++ rs₂, st₂) := by
  exact (processLogos_error_isolation sampleState ["vercel"]
    ⟨false, false, false⟩).2.2.1 ["github", "github_dark", "vercel"]
    "vercel" [] (by rfl)

theorem listIncludes_append_right (pat l₂ : List Char)
    (h : listIncludes pat l₂ = true) :
    ∀ l₁, listIncludes pat (l₁ ++ l₂) = true
  | [] => by simpa using h
  | c :: t => by
    have ih := listIncludes_append_right pat l₂ h t
    show (pat.isPrefixOf (c :: (t ++ l₂)) || listIncludes pat (t ++ l₂)) =
      true
    rw [ih]
    simp

/-- Claim C6: a brand name resolving to zero identifiers that is also absent
from the source store yields exactly one record — a failure whose error
message contains "not found in library" — for that name, with the state
untouched (no copy performed) and no other record produced. -/
theorem processOneName_not_found (avail : List String)
    (opts : ProcessLogosOptions) (st : FSState) (n : String)
    (h1 : findLogoVariants n avail = [])
    (h2 : logoExistsInLibrary st n = false) :
    processOneName avail opts st n = ([failResult n (notFoundMsg n)], st) ∧
      strIncludes (notFoundMsg n) "not found in library" = true := by
  constructor
  · unfold processOneName
    rw [h1]
    simp [h2]
  · show listIncludes ("not found in library").data (notFoundMsg n).data =
      true
    have hdata : (notFoundMsg n).data =
        ("Logo \"".data ++ n.data) ++ "\" not found in library".data := rfl
    rw [hdata]
    exact listIncludes_append_right _ _ (by decide) _

/-- Witness for `processOneName_not_found` at a concrete input. -/
theorem processOneName_not_found_witness :
    processOneName ["github", "github_dark", "vercel"]
        ⟨false, false, false⟩ sampleState "missing" =
      ([failResult "missing" (notFoundMsg "missing")], sampleState) ∧
      strIncludes (notFoundMsg "missing") "not found in library" = true := by
  exact processOneName_not_found ["github", "github_dark", "vercel"]
    ⟨false, false, false⟩ sampleState "missing" (by rfl) (by rfl)

/-- Claim C7: every record `processLogos` produces satisfies the record
invariant — `error` is present exactly when `success` is false, `reason`
exactly when the record is skipped, and a skipped record is a success —
and, at the moment of a record's creation in the per-variant loop, the
record is skipped if and only if it is a success whose destination file
already existed.  Records are plain immutable values in this embedding. -/
theorem processLogos_result_invariants (st : FSState) (names : List String)
    (opts : ProcessLogosOptions) :
    (∀ rs st', processLogos st names opts = .ok (rs, st') →
        ∀ r ∈ rs,
          (r.error.isSome ↔ r.success = false) ∧
          (r.reason.isSome ↔ r.skipped = some true) ∧
          (r.skipped = some true → r.success = true)) ∧
      (∀ (st₀ : FSState) (v : String) (vs : List String)
          (r : LogoOperationResult),
        (copyVariantsLoop st₀ (v :: vs)).1.head? = some r →
        (r.skipped = some true ↔
          (r.success = true ∧ logoExistsInTarget st₀ v = true))) := by
  constructor
  · intro rs st' hok r hr
    unfold processLogos at hok
    split at hok
    case h_1 e heq => simp at hok
    case h_2 avail heq =>
      have heq2 : processNamesLoop avail opts st names = (rs, st') := by
        injection hok
      have hr' : r ∈ (processNamesLoop avail opts st names).1 := by
        rw [heq2]
        exact hr
      rcases processNamesLoop_shape avail opts names st r hr' with
        ⟨v, h⟩ | ⟨v, h⟩ | ⟨m, msg, h⟩ <;> subst h <;>
        simp [skipResult, okResult, failResult]
  · intro st₀ v vs r h
    simp only [copyVariantsLoop] at h
    split at h
    case isTrue hex =>
      simp only [List.head?_cons, Option.some.injEq] at h
      subst h
      simp [skipResult, hex]
    case isFalse hex =>
      split at h
      case h_1 msg heq => simp at h
      case h_2 st1 heq =>
        simp only [List.head?_cons, Option.some.injEq] at h
        subst h
        simp only [okResult]
        constructor
        · intro hcon
          exact absurd hcon (by simp)
        · rintro ⟨-, hcon⟩
          exact absurd hcon hex

/-- Witness for `processLogos_result_invariants` at a concrete run. -/
theorem processLogos_result_invariants_witness :
    ((okResult "vercel").error.isSome ↔ (okResult "vercel").success = false) ∧
      ((okResult "vercel").reason.isSome ↔
        (okResult "vercel").skipped = some true) ∧
      ((okResult "vercel").skipped = some true →
        (okResult "vercel").success = true) := by
  exact (processLogos_result_invariants sampleState ["vercel"]
      ⟨false, false, false⟩).1
    [okResult "vercel"]
    { library := [("github.svg", "G"), ("github_dark.svg", "GD"),
        ("vercel.svg", "V")],
      libraryReadError := none, target := [("vercel.svg", "V")],
      copyFailures := [] }
    (by rfl) (okResult "vercel") (by simp)

end Brandcn
